import Mathlib

/-!
Verification of the `geo_data_tiler` repository (`src/tiler.rs`, `src/binary_hash_tile.rs`).

The embedding models the Rust code as follows.

* A binary-hash key (`String` in Rust, produced by `BinaryHash::encode`) is a
  `List Char` (`BHKey`).  The codec `geohashrust::BinaryHash` is an external
  collaborator; where a claim depends on its output shape it is taken as a
  parameter together with the contract stated in the spec (a `'0'`/`'1'`
  string whose length equals the requested precision).
* A row of the polars dataframe built in `get_tiles` (columns `binary_hash`,
  `node_count : i64`) is a pair `BHKey × Int` (`Row`).  The `HashMap` state
  `binary_hash_count` is a list of such rows in some iteration order; the
  `HashMap` invariant (unique keys) is the predicate `KeysNodup`.
* `max_allowed_features_in_binary_hash : u64` is a `Nat` below `2 ^ 64`; the
  expression `max_allowed_features_in_binary_hash + 1` at tiler.rs:76 is u64
  machine arithmetic and is embedded as `(C + 1) % 2 ^ 64` (release,
  i.e. wrapping, semantics).
* The loop `for i in 0..precision` of `get_tiles` becomes the structural
  recursion `mergeFrom` over the number of remaining levels; at level `i`
  the slice length is `n = i + 1`:
  - `groupSum n act p` is the `total_node_count` aggregate of the group of
    `sliced_binary_hash = p` (tiler.rs:54-61);
  - `overActive C n act` is the over-capacity part, filter
    `total_node_count > C` exploded back to its member rows and joined with
    their counts (tiler.rs:62-71) — as key sets and counts this is exactly
    the rows whose group total exceeds `C`;
  - `underGroups`/`emittedAt` are the within-capacity part, filter
    `total_node_count < C + 1` (tiler.rs:73-104), emitted as one tile per
    group keyed by the slice.
  After the loop the remaining rows are emitted as-is (tiler.rs:107-132).
* `binary_hash_tiles` is a `HashMap` filled by successive `insert`; it is
  embedded as the emission-ordered pair list `getTilesPairs` with the
  last-insert-wins lookup `tileLookup`.
-/

/-- A binary spatial hash key: the character sequence of a Rust `String`. -/
abbrev BHKey := List Char

/-- One dataframe row: (`binary_hash`, `node_count`), tiler.rs:36-39. -/
abbrev Row := BHKey × Int

/-- Decoded box returned by `BinaryHash::decode` (external codec). -/
structure BoundingBox where
  min_lon : Float
  min_lat : Float
  max_lon : Float
  max_lat : Float

/-- `BinaryHashTile` from src/binary_hash_tile.rs. -/
structure BinaryHashTile where
  node_count : Int
  min_lon : Float
  min_lat : Float
  max_lon : Float
  max_lat : Float

/-- Build a `BinaryHashTile` from a count and a decoded box (tiler.rs:96-102). -/
def mkTile (c : Int) (b : BoundingBox) : BinaryHashTile :=
  ⟨c, b.min_lon, b.min_lat, b.max_lon, b.max_lat⟩

/-- `total_node_count` of the group of rows whose slice of length `n`
(`&binary_hash_value[..i + 1]`, `n = i + 1`) equals `p` (tiler.rs:54-61). -/
def groupSum (n : Nat) (rows : List Row) (p : BHKey) : Int :=
  ((rows.filter (fun r => decide (r.1.take n = p))).map (fun r => r.2)).sum

/-- The distinct `sliced_binary_hash` values of the grouped frame (tiler.rs:54-57). -/
def groupKeys (n : Nat) (rows : List Row) : List BHKey :=
  (rows.map (fun r => r.1.take n)).dedup

/-- The right-hand side of the within-capacity filter
`col("total_node_count").lt(lit(self.max_allowed_features_in_binary_hash + 1))`
(tiler.rs:75-77): the `+ 1` is u64 machine arithmetic, so it wraps at `2 ^ 64`. -/
def underCapBound (C : Nat) : Int :=
  (((C + 1) % 2 ^ 64 : Nat) : Int)

/-- Groups passing the within-capacity filter (tiler.rs:73-78). -/
def underGroups (C n : Nat) (rows : List Row) : List BHKey :=
  (groupKeys n rows).filter (fun p => decide (groupSum n rows p < underCapBound C))

/-- Tiles inserted for the within-capacity groups at slice length `n`:
key = `sliced_binary_hash`, count = `total_node_count` (tiler.rs:79-104). -/
def emittedAt (C n : Nat) (rows : List Row) : List (BHKey × Int) :=
  (underGroups C n rows).map (fun p => (p, groupSum n rows p))

/-- The next `binary_hash_count_df`: rows of the groups passing the
over-capacity filter `total_node_count > C`, exploded back to their members
and re-joined with their counts (tiler.rs:62-71). -/
def overActive (C n : Nat) (rows : List Row) : List Row :=
  rows.filter (fun r => decide ((C : Int) < groupSum n rows (r.1.take n)))

/-- The level loop `for i in 0..precision` (tiler.rs:43-105), starting at slice
length `n`, with `fuel` levels left.  Returns the tiles inserted inside the
loop (in insertion order) and the final leftover `binary_hash_count_df`. -/
def mergeFrom (C : Nat) : Nat → Nat → List Row → List (BHKey × Int) × List Row
  | _, 0, act => ([], act)
  | n, fuel + 1, act =>
    let em := emittedAt C n act
    let res := mergeFrom C (n + 1) fuel (overActive C n act)
    (em ++ res.1, res.2)

/-- All `(key, node_count)` pairs inserted into `binary_hash_tiles`, in
insertion order: the in-loop tiles (tiler.rs:91-104) followed by the
leftover full-precision rows (tiler.rs:107-132). -/
def getTilesPairs (C P : Nat) (rows : List Row) : List (BHKey × Int) :=
  (mergeFrom C 1 P rows).1 ++ (mergeFrom C 1 P rows).2

/-- Lookup in the `binary_hash_tiles` `HashMap`: successive `insert`s mean the
last inserted pair with a given key wins; the tile's box decodes its key
(tiler.rs:95-103, 123-131). -/
def tileLookup (decode : BHKey → BoundingBox) (pairs : List (BHKey × Int))
    (k : BHKey) : Option BinaryHashTile :=
  (pairs.reverse.find? (fun e => decide (e.1 = k))).map
    (fun e => mkTile e.2 (decode e.1))

/-- The `Tiler` struct (tiler.rs:8-12). -/
structure Tiler where
  binary_hash_precision : Nat
  max_allowed_features_in_binary_hash : Nat
  binary_hash_count : List Row

/-- `Tiler::new` (tiler.rs:15-21). -/
def Tiler.new (P C : Nat) : Tiler :=
  ⟨P, C, []⟩

/-- The value of an `i64` result under release (wrapping) semantics, as an
integer in `[-2 ^ 63, 2 ^ 63)` — the same machine-arithmetic convention this
embedding uses for the u64 increment at tiler.rs:76. -/
def wrapI64 (x : Int) : Int :=
  (x + 2 ^ 63) % 2 ^ 64 - 2 ^ 63

/-- `HashMap::entry(k).or_insert(0) += 1` (tiler.rs:29): an `i64` increment,
wrapping at `2 ^ 63` under release semantics. -/
def addKey (k : BHKey) : List Row → List Row
  | [] => [(k, wrapI64 (0 + 1))]
  | r :: rest =>
    if r.1 = k then (r.1, wrapI64 (r.2 + 1)) :: rest else r :: addKey k rest

/-- `Tiler::add_coordinate` (tiler.rs:23-30): encode the coordinate at the
configured precision and bump its count.  The codec is a parameter; `α` is
the coordinate type (`GeoLocation` in the source). -/
def Tiler.add_coordinate {α : Type} (encode : α → Nat → BHKey) (t : Tiler)
    (c : α) : Tiler :=
  { t with binary_hash_count :=
      addKey (encode c t.binary_hash_precision) t.binary_hash_count }

/-- A sequence of `add_coordinate` calls. -/
def runAdds {α : Type} (encode : α → Nat → BHKey) (t : Tiler)
    (coords : List α) : Tiler :=
  coords.foldl (Tiler.add_coordinate encode) t

/-- `Tiler::get_tiles` (tiler.rs:32-135): a `&self` method, embedded with
explicit state passing — it returns its `Result` together with the (unchanged)
receiver state.  The embedded dataframe operations are total on the states a
`Tiler` can reach, so the result is always `Ok`. -/
def Tiler.get_tiles (decode : BHKey → BoundingBox) (t : Tiler) :
    Except String (BHKey → Option BinaryHashTile) × Tiler :=
  (Except.ok
      (tileLookup decode
        (getTilesPairs t.max_allowed_features_in_binary_hash
          t.binary_hash_precision t.binary_hash_count)),
    t)

/-- The `binary_hash_count_df` at the start of level index `i` (slice length
`i + 1`): level 0 sees the full table (tiler.rs:33-39), and each level passes
the over-capacity rows on (tiler.rs:62-71). -/
def activeAt (C : Nat) (rows : List Row) : Nat → List Row
  | 0 => rows
  | i + 1 => overActive C (i + 1) (activeAt C rows i)

/-- UTF-8 byte width of one character (Rust `char::len_utf8`). -/
def charUtf8Size (c : Char) : Nat :=
  if c.toNat < 0x80 then 1
  else if c.toNat < 0x800 then 2
  else if c.toNat < 0x10000 then 3
  else 4

/-- UTF-8 byte length of a Rust `String` with these characters. -/
def utf8Len (l : List Char) : Nat :=
  (l.map charUtf8Size).sum

/-- Byte index `b` lies on a character boundary of the string `l`; Rust's
`&s[..b]` panics exactly when `b` is not such a boundary or is out of range. -/
def IsCharBoundary (l : List Char) (b : Nat) : Prop :=
  ∃ m, m ≤ l.length ∧ utf8Len (l.take m) = b

/-- Every row key has length `P` (all keys are full-precision hashes). -/
abbrev KeyLen (P : Nat) (l : List Row) : Prop :=
  ∀ r ∈ l, r.1.length = P

/-- The `HashMap` invariant: the keys of the row list are pairwise distinct. -/
abbrev KeysNodup (l : List Row) : Prop :=
  (l.map (fun r => r.1)).Nodup

/-- `act` is obtained from `orig` by dropping some rows (each level's table is
a filter of the previous one, hence of the original snapshot). -/
def SubFilter (orig act : List Row) : Prop :=
  ∃ q : Row → Bool, act = orig.filter q

/-- `act` is closed under sharing a length-`m` slice: along with any active
row, every original row of its level-`m` group is still active. -/
def GroupClosed (m : Nat) (orig act : List Row) : Prop :=
  ∀ r ∈ orig, ∀ a ∈ act, r.1.take m = a.1.take m → r ∈ act

/-! ### Generic list-sum helpers -/

theorem sum_map_add_distrib {α : Type} (l : List α) (f g : α → Int) :
    (l.map (fun x => f x + g x)).sum = (l.map f).sum + (l.map g).sum := by
  induction l with
  | nil => simp
  | cons a t ih => simp only [List.map_cons, List.sum_cons, ih]; ring

theorem sum_filter_eq_sum_ite {α : Type} (l : List α) (q : α → Bool) (f : α → Int) :
    ((l.filter q).map f).sum = (l.map (fun x => if q x then f x else 0)).sum := by
  induction l with
  | nil => rfl
  | cons a t ih => cases hqa : q a <;> simp [List.filter_cons, hqa, ih]

theorem sum_filter_split {α : Type} (l : List α) (q : α → Bool) (f : α → Int) :
    ((l.filter q).map f).sum + ((l.filter (fun x => !q x)).map f).sum
      = (l.map f).sum := by
  induction l with
  | nil => rfl
  | cons a t ih =>
    cases hqa : q a <;>
      simp [List.filter_cons, hqa] <;>
      omega

theorem sum_ite_eq_zero_of_not_mem {β : Type} [DecidableEq β] (L : List β)
    (c : β) (w : β → Int) (hc : c ∉ L) :
    (L.map (fun p => if c = p then w p else 0)).sum = 0 := by
  induction L with
  | nil => rfl
  | cons a t ih =>
    simp only [List.mem_cons, not_or] at hc
    simp [List.map_cons, if_neg hc.1, ih hc.2]

theorem sum_ite_eq_of_nodup {β : Type} [DecidableEq β] (L : List β) (c : β)
    (w : β → Int) (hnd : L.Nodup) (hc : c ∈ L) :
    (L.map (fun p => if c = p then w p else 0)).sum = w c := by
  induction L with
  | nil => cases hc
  | cons a t ih =>
    rcases List.mem_cons.mp hc with h | h
    · subst h
      have hct : c ∉ t := (List.nodup_cons.mp hnd).1
      simp [sum_ite_eq_zero_of_not_mem t c w hct]
    · have hne : c ≠ a := by
        rintro rfl
        exact (List.nodup_cons.mp hnd).1 h
      simp [if_neg hne, ih (List.nodup_cons.mp hnd).2 h]

theorem sum_sum_swap {β γ : Type} (l1 : List β) (l2 : List γ) (F : β → γ → Int) :
    (l1.map (fun a => (l2.map (F a)).sum)).sum
      = (l2.map (fun b => (l1.map (fun a => F a b)).sum)).sum := by
  induction l1 with
  | nil => simp
  | cons a t ih =>
    simp only [List.map_cons, List.sum_cons, ih]
    rw [← sum_map_add_distrib]

/-- Summing a function over the fibers of a grouping that pass a group-level
predicate `Q` equals summing it over the elements whose own group passes `Q`. -/
theorem sum_fiber_filter {α β : Type} [DecidableEq β] (l : List α) (g : α → β)
    (f : α → Int) (Q : β → Bool) :
    ((((l.map g).dedup).filter Q).map
        (fun p => ((l.filter (fun x => decide (g x = p))).map f).sum)).sum
      = ((l.filter (fun x => Q (g x))).map f).sum := by
  rw [sum_filter_eq_sum_ite ((l.map g).dedup) Q
      (fun p => ((l.filter (fun x => decide (g x = p))).map f).sum)]
  have h1 : ∀ p, ((l.filter (fun x => decide (g x = p))).map f).sum
      = (l.map (fun x => if g x = p then f x else 0)).sum := by
    intro p
    rw [sum_filter_eq_sum_ite]
    apply congrArg
    apply List.map_congr_left
    intro x _
    by_cases h : g x = p <;> simp [h]
  have h2 : (((l.map g).dedup).map
      (fun p => if Q p then ((l.filter (fun x => decide (g x = p))).map f).sum else 0)).sum
      = (((l.map g).dedup).map
      (fun p => (l.map (fun x => if Q p ∧ g x = p then f x else 0)).sum)).sum := by
    apply congrArg
    apply List.map_congr_left
    intro p _
    cases hq : Q p
    · simp [hq]
    · simp only [hq, ite_true, h1 p, true_and]
  rw [h2, sum_sum_swap]
  rw [sum_filter_eq_sum_ite l (fun x => Q (g x)) f]
  apply congrArg
  apply List.map_congr_left
  intro x hx
  have hmem : g x ∈ (l.map g).dedup := List.mem_dedup.mpr (List.mem_map_of_mem g hx)
  have hrw : (((l.map g).dedup).map (fun p => if Q p ∧ g x = p then f x else 0))
      = (((l.map g).dedup).map
          (fun p => if g x = p then (if Q p then f x else 0) else 0)) := by
    apply List.map_congr_left
    intro p _
    by_cases h1' : g x = p <;> by_cases h2' : Q p <;> simp [h1', h2']
  rw [hrw, sum_ite_eq_of_nodup _ (g x) (fun p => if Q p then f x else 0)
    (List.nodup_dedup _) hmem]

/-! ### Per-level accounting -/

/-- The tiles emitted at one level plus the rows carried to the next level
account for exactly the counts of the active table (needs the `u64` increment
`C + 1` not to wrap, tiler.rs:76). -/
theorem level_sum_split (C n : Nat) (act : List Row) (hC : C + 1 < 2 ^ 64) :
    ((emittedAt C n act).map (fun e => e.2)).sum
      + ((overActive C n act).map (fun r => r.2)).sum
      = (act.map (fun r => r.2)).sum := by
  have hbound : underCapBound C = (C : Int) + 1 := by
    unfold underCapBound
    rw [Nat.mod_eq_of_lt hC]
    push_cast
    ring
  have hem : ((emittedAt C n act).map (fun e => e.2)).sum
      = ((underGroups C n act).map (fun p => groupSum n act p)).sum := by
    unfold emittedAt
    rw [List.map_map]
    rfl
  have hunder : ((underGroups C n act).map (fun p => groupSum n act p)).sum
      = ((act.filter (fun r =>
          decide (groupSum n act (r.1.take n) < underCapBound C))).map
          (fun r => r.2)).sum := by
    unfold underGroups groupKeys
    exact sum_fiber_filter act (fun r => r.1.take n) (fun r => r.2)
      (fun p => decide (groupSum n act p < underCapBound C))
  have hcompl : (act.filter (fun r =>
      decide (groupSum n act (r.1.take n) < underCapBound C)))
      = (act.filter (fun r =>
          !(decide ((C : Int) < groupSum n act (r.1.take n))))) := by
    apply List.filter_congr
    intro r _
    rw [hbound]
    by_cases h : (C : Int) < groupSum n act (r.1.take n)
    · simp only [decide_eq_true h, Bool.not_true, decide_eq_false_iff_not, not_lt]
      omega
    · simp only [decide_eq_false h, Bool.not_false, decide_eq_true_eq]
      omega
  rw [hem, hunder, hcompl, add_comm]
  exact sum_filter_split act
    (fun r => decide ((C : Int) < groupSum n act (r.1.take n))) (fun r => r.2)

/-- Level-loop conservation: emitted tiles plus leftover rows carry the full
count of the table the loop started from. -/
theorem mergeFrom_sum (C : Nat) (hC : C + 1 < 2 ^ 64) :
    ∀ fuel n act, (((mergeFrom C n fuel act).1).map (fun e => e.2)).sum
      + (((mergeFrom C n fuel act).2).map (fun r => r.2)).sum
      = (act.map (fun r => r.2)).sum := by
  intro fuel
  induction fuel with
  | zero => intro n act; simp [mergeFrom]
  | succ fuel ih =>
    intro n act
    have h1 := level_sum_split C n act hC
    have h2 := ih (n + 1) (overActive C n act)
    simp only [mergeFrom, List.map_append, List.sum_append]
    omega

theorem getTilesPairs_sum (C P : Nat) (rows : List Row) (hC : C < 2 ^ 64 - 1) :
    ((getTilesPairs C P rows).map (fun e => e.2)).sum
      = (rows.map (fun r => r.2)).sum := by
  unfold getTilesPairs
  rw [List.map_append, List.sum_append]
  exact mergeFrom_sum C (by omega) P 1 rows

/-! ### Counting `add_coordinate` calls -/

theorem wrapI64_eq_self {x : Int} (h1 : -(2 ^ 63) ≤ x) (h2 : x < 2 ^ 63) :
    wrapI64 x = x := by
  unfold wrapI64
  have h3 : (0 : Int) ≤ x + 2 ^ 63 := by omega
  have h4 : x + 2 ^ 63 < 2 ^ 64 := by omega
  rw [Int.emod_eq_of_lt h3 h4]
  ring

/-- At a count of `i64::MAX` the increment at tiler.rs:29 wraps to
`i64::MIN` under release semantics — the reason the conservation theorem
bounds the number of `add_coordinate` calls. -/
theorem addKey_wraps_at_i64_max :
    addKey ['0'] [( ['0'], 2 ^ 63 - 1)] = [( ['0'], -(2 ^ 63))] := by
  decide

/-- On a table whose counts lie in `[0, N]` with `N + 1 < 2 ^ 63`, the i64
increment of `addKey` does not wrap: it adds exactly one to the total and
keeps every count in `[0, N + 1]`. -/
theorem addKey_sum_bounded (k : BHKey) (N : Nat) (hN : (N : Int) + 1 < 2 ^ 63) :
    ∀ t : List Row, (∀ r ∈ t, 0 ≤ r.2 ∧ r.2 ≤ (N : Int)) →
      ((addKey k t).map (fun r => r.2)).sum = (t.map (fun r => r.2)).sum + 1
        ∧ ∀ r ∈ addKey k t, 0 ≤ r.2 ∧ r.2 ≤ (N : Int) + 1 := by
  have hw1 : wrapI64 1 = 1 := by decide
  intro t
  induction t with
  | nil =>
    intro _
    constructor
    · simp [addKey, hw1]
    · intro r hr
      rw [List.mem_singleton.mp hr]
      show 0 ≤ wrapI64 (0 + 1) ∧ wrapI64 (0 + 1) ≤ (N : Int) + 1
      rw [zero_add, hw1]
      constructor
      · omega
      · have : (0 : Int) ≤ (N : Int) := Int.natCast_nonneg N
        omega
  | cons a rest ih =>
    intro hall
    have ha := hall a (List.mem_cons_self a rest)
    have hrest : ∀ r ∈ rest, 0 ≤ r.2 ∧ r.2 ≤ (N : Int) :=
      fun r hr => hall r (List.mem_cons_of_mem a hr)
    by_cases h : a.1 = k
    · have hw : wrapI64 (a.2 + 1) = a.2 + 1 :=
        wrapI64_eq_self (by omega) (by omega)
      constructor
      · simp only [addKey, if_pos h, List.map_cons, List.sum_cons, hw]
        ring
      · intro r hr
        rw [addKey, if_pos h] at hr
        rcases List.mem_cons.mp hr with heq | hmem
        · rw [heq, hw]
          constructor <;> omega
        · have hb := hrest r hmem
          constructor <;> omega
    · obtain ⟨ihsum, ihb⟩ := ih hrest
      constructor
      · simp only [addKey, if_neg h, List.map_cons, List.sum_cons, ihsum]
        ring
      · intro r hr
        rw [addKey, if_neg h] at hr
        rcases List.mem_cons.mp hr with heq | hmem
        · rw [heq]
          constructor <;> omega
        · exact ihb r hmem

/-- A run of `n` `add_coordinate` calls on a table of counts in `[0, N]`,
with `N + n < 2 ^ 63` so that no i64 count overflows, adds exactly `n` to
the count total and keeps every count in `[0, N + n]`. -/
theorem runAdds_sum_bounded {α : Type} (encode : α → Nat → BHKey) :
    ∀ (coords : List α) (t : Tiler) (N : Nat),
      (N : Int) + (coords.length : Int) < 2 ^ 63 →
      (∀ r ∈ t.binary_hash_count, 0 ≤ r.2 ∧ r.2 ≤ (N : Int)) →
      (((runAdds encode t coords).binary_hash_count).map (fun r => r.2)).sum
          = ((t.binary_hash_count).map (fun r => r.2)).sum + (coords.length : Int)
        ∧ ∀ r ∈ (runAdds encode t coords).binary_hash_count,
            0 ≤ r.2 ∧ r.2 ≤ (N : Int) + (coords.length : Int) := by
  intro coords
  induction coords with
  | nil =>
    intro t N _ hb
    refine ⟨by simp [runAdds], ?_⟩
    intro r hr
    have hbr := hb r hr
    simpa using hbr
  | cons c cs ih =>
    intro t N hN hb
    simp only [List.length_cons] at hN
    push_cast at hN
    have hN1 : (N : Int) + 1 < 2 ^ 63 := by omega
    obtain ⟨hsum1, hb1⟩ := addKey_sum_bounded (encode c t.binary_hash_precision)
      N hN1 t.binary_hash_count hb
    have h1 : runAdds encode t (c :: cs)
        = runAdds encode (Tiler.add_coordinate encode t c) cs := rfl
    rw [h1]
    obtain ⟨ihsum, ihb⟩ := ih (Tiler.add_coordinate encode t c) (N + 1)
      (by push_cast; omega)
      (by
        intro r hr
        have hbr := hb1 r hr
        push_cast
        exact hbr)
    have ht' : (Tiler.add_coordinate encode t c).binary_hash_count
        = addKey (encode c t.binary_hash_precision) t.binary_hash_count := rfl
    constructor
    · rw [ihsum, ht', hsum1]
      simp only [List.length_cons]
      push_cast
      ring
    · intro r hr
      have hbr := ihb r hr
      simp only [List.length_cons]
      push_cast at hbr ⊢
      constructor
      · exact hbr.1
      · omega

/-! ### Capacity bound on in-loop tiles -/

/-- Every tile inserted inside the level loop has
`node_count < (C + 1) mod 2 ^ 64 ≤ C + 1`, hence `node_count ≤ C`. -/
theorem mergeFrom_emitted_le (C : Nat) :
    ∀ fuel n act, ∀ e ∈ (mergeFrom C n fuel act).1, e.2 ≤ (C : Int) := by
  intro fuel
  induction fuel with
  | zero => intro n act e he; simp [mergeFrom] at he
  | succ fuel ih =>
    intro n act e he
    rcases List.mem_append.mp he with h | h
    · obtain ⟨p, hp, rfl⟩ := List.mem_map.mp h
      have hu : decide (groupSum n act p < underCapBound C) = true :=
        (List.mem_filter.mp hp).2
      have hlt : groupSum n act p < underCapBound C := of_decide_eq_true hu
      have hb : underCapBound C ≤ (C : Int) + 1 := by
        unfold underCapBound
        have hm : (C + 1) % 2 ^ 64 ≤ C + 1 := Nat.mod_le _ _
        exact_mod_cast hm
      simp only
      omega
    · exact ih (n + 1) (overActive C n act) e h

/-- C3: every tile in the map returned by `get_tiles()`, except the
irreducible full-precision leaves emitted after the last level, has
`node_count ≤ max_allowed_features_in_binary_hash`.  The in-loop emissions
(`(mergeFrom C 1 P rows).1`) are exactly the non-leaf tiles; the leaves are
the `.2` component. -/
theorem c3_capacity_bound (C P : Nat) (rows : List Row) (e : BHKey × Int)
    (he : e ∈ (mergeFrom C 1 P rows).1) : e.2 ≤ (C : Int) :=
  mergeFrom_emitted_le C P 1 rows e he

theorem c3_capacity_bound_witness :
    (( ['0'], (1 : Int)) ∈ (mergeFrom 2 1 1 [( ['0'], 1)]).1)
      ∧ (( ['0'], (1 : Int)).2 ≤ ((2 : Nat) : Int)) :=
  ⟨by decide, c3_capacity_bound 2 1 [( ['0'], 1)] ( ['0'], 1) (by decide)⟩

/-- C1 (amended): conservation.  For every capacity `C < 2 ^ 64 - 1` (so the
u64 increment `C + 1` at tiler.rs:76 does not wrap) and every sequence of
fewer than `2 ^ 63` `add_coordinate` calls (so no i64 count at tiler.rs:29
overflows), the sum of `node_count` over all pairs inserted into the
returned tile map equals the number of `add_coordinate` calls. -/
theorem c1_conservation {α : Type} (encode : α → Nat → BHKey) (C P : Nat)
    (coords : List α) (hC : C < 2 ^ 64 - 1)
    (hlen : coords.length < 2 ^ 63) :
    ((getTilesPairs C P
        ((runAdds encode (Tiler.new P C) coords).binary_hash_count)).map
        (fun e => e.2)).sum = (coords.length : Int) := by
  rw [getTilesPairs_sum _ _ _ hC]
  have h := (runAdds_sum_bounded encode coords (Tiler.new P C) 0
    (by push_cast; omega) (by intro r hr; cases hr)).1
  rw [h]
  simp [Tiler.new]

theorem c1_conservation_witness :
    ((2 : Nat) < 2 ^ 64 - 1 ∧ ([0, 1, 0] : List Nat).length < 2 ^ 63)
      ∧ ((getTilesPairs 2 1
          ((runAdds (fun (_ : Nat) _ => ['0']) (Tiler.new 1 2)
            [0, 1, 0]).binary_hash_count)).map
          (fun e => e.2)).sum = (([0, 1, 0].length : Nat) : Int) :=
  ⟨⟨by decide, by decide⟩,
    c1_conservation (fun (_ : Nat) _ => ['0']) 2 1 [0, 1, 0] (by decide)
      (by decide)⟩

/-- C1 counterexample: at `max_allowed_features_in_binary_hash = 2 ^ 64 - 1`
(`u64::MAX`), the wrapped within-capacity bound becomes `0` and the
over-capacity filter `total_node_count > u64::MAX` also rejects every group,
so after one `add_coordinate` call `get_tiles()` (release semantics) returns
an empty map: the tile-count sum is `0`, not `1`.  Conservation as claimed
("for every capacity C") is therefore false. -/
theorem c1_conservation_cex :
    ¬ (((getTilesPairs (2 ^ 64 - 1) 1
          ((runAdds (fun (_ : Nat) _ => ['0']) (Tiler.new 1 (2 ^ 64 - 1))
            [0]).binary_hash_count)).map
          (fun e => e.2)).sum = (([0].length : Nat) : Int)) := by
  decide

/-! ### Level-table invariants -/

theorem subFilter_filter (orig act : List Row) (h : SubFilter orig act)
    (q : Row → Bool) : SubFilter orig (act.filter q) := by
  obtain ⟨q1, rfl⟩ := h
  exact ⟨fun r => q r && q1 r, by rw [List.filter_filter]⟩

theorem subFilter_mem {orig act : List Row} (h : SubFilter orig act)
    {a : Row} (ha : a ∈ act) : a ∈ orig := by
  obtain ⟨q1, rfl⟩ := h
  exact (List.mem_filter.mp ha).1

theorem subFilter_self (l : List Row) : SubFilter l l :=
  ⟨fun _ => true, (List.filter_true l).symm⟩

theorem groupClosed_zero (l : List Row) : GroupClosed 0 l l :=
  fun _ hr _ _ _ => hr

/-- Taking one more slice symbol refines the grouping: equal `(m+1)`-slices
have equal `m`-slices. -/
theorem take_eq_of_take_succ_eq {k l : BHKey} {m : Nat}
    (h : k.take (m + 1) = l.take (m + 1)) : k.take m = l.take m := by
  have h1 : (k.take (m + 1)).take m = (l.take (m + 1)).take m := by rw [h]
  simpa [List.take_take, Nat.min_eq_left (Nat.le_succ m)] using h1

/-- Group closure is preserved by the over-capacity filter: a whole group
either survives or is dropped (tiler.rs:62-71). -/
theorem groupClosed_overActive (C m : Nat) (orig act : List Row)
    (hcl : GroupClosed m orig act) :
    GroupClosed (m + 1) orig (overActive C (m + 1) act) := by
  intro r hr a ha heq
  have hamem : a ∈ act := (List.mem_filter.mp ha).1
  have hcond : decide ((C : Int) < groupSum (m + 1) act (a.1.take (m + 1))) = true :=
    (List.mem_filter.mp ha).2
  have hract : r ∈ act := hcl r hr a hamem (take_eq_of_take_succ_eq heq)
  refine List.mem_filter.mpr ⟨hract, ?_⟩
  rw [heq]
  exact hcond

/-- On a group-closed level table, a live group's aggregate equals the
aggregate of the same slice over the original snapshot. -/
theorem groupSum_eq_of_closed (m : Nat) (orig act : List Row)
    (hsub : SubFilter orig act) (hcl : GroupClosed m orig act)
    (a : Row) (ha : a ∈ act) :
    groupSum (m + 1) act (a.1.take (m + 1))
      = groupSum (m + 1) orig (a.1.take (m + 1)) := by
  obtain ⟨q, hq⟩ := hsub
  subst hq
  unfold groupSum
  congr 1
  apply congrArg
  rw [List.filter_filter]
  apply List.filter_congr
  intro r hr
  by_cases htr : r.1.take (m + 1) = a.1.take (m + 1)
  · have hract : r ∈ orig.filter q := hcl r hr a ha (take_eq_of_take_succ_eq htr)
    have hqr : q r = true := (List.mem_filter.mp hract).2
    simp [htr, hqr]
  · simp [htr]

theorem mem_groupKeys {n : Nat} {act : List Row} {p : BHKey}
    (h : p ∈ groupKeys n act) : ∃ a ∈ act, a.1.take n = p := by
  unfold groupKeys at h
  exact List.mem_map.mp (List.mem_dedup.mp h)

/-! ### Coarsest-sufficient emission -/

/-- Induction core for C4: if every row still active at slice length `m + 1`
sits in a level-`m` group whose aggregate over the original snapshot exceeds
`C` (the reason it was carried, tiler.rs:62-66), then every tile emitted from
here on at key length `k ≥ 2` has its `(k-1)`-slice aggregate over the
original snapshot above `C`. -/
theorem mergeFrom_coarsest (C P : Nat) (orig : List Row) (hlen : KeyLen P orig) :
    ∀ fuel m act, SubFilter orig act → GroupClosed m orig act → m + fuel = P →
      (∀ a ∈ act, 1 ≤ m → (C : Int) < groupSum m orig (a.1.take m)) →
      ∀ p v, (p, v) ∈ (mergeFrom C (m + 1) fuel act).1 → 2 ≤ p.length →
        (C : Int) < groupSum (p.length - 1) orig (p.take (p.length - 1)) := by
  intro fuel
  induction fuel with
  | zero =>
    intro m act _ _ _ _ p v hmem
    simp [mergeFrom] at hmem
  | succ fuel ih =>
    intro m act hsub hcl hmf hprev p v hmem hp2
    rcases List.mem_append.mp hmem with h | h
    · obtain ⟨p', hp', heq⟩ := List.mem_map.mp h
      injection heq with h1 h2
      subst h1
      have hpk : p' ∈ groupKeys (m + 1) act := (List.mem_filter.mp hp').1
      obtain ⟨a, ha, hpa⟩ := mem_groupKeys hpk
      have halen : a.1.length = P := hlen a (subFilter_mem hsub ha)
      have hmP : m + 1 ≤ P := by omega
      have hplen : p'.length = m + 1 := by
        rw [← hpa, List.length_take]
        omega
      have hm1 : 1 ≤ m := by
        rw [hplen] at hp2
        omega
      have hptake : p'.take m = a.1.take m := by
        rw [← hpa, List.take_take, Nat.min_eq_left (Nat.le_succ m)]
      rw [hplen, Nat.add_sub_cancel, hptake]
      exact hprev a ha hm1
    · refine ih (m + 1) (overActive C (m + 1) act)
        (subFilter_filter orig act hsub _)
        (groupClosed_overActive C m orig act hcl) (by omega) ?_ p v h hp2
      intro a ha _
      have hamem : a ∈ act := (List.mem_filter.mp ha).1
      have hcond : (C : Int) < groupSum (m + 1) act (a.1.take (m + 1)) :=
        of_decide_eq_true (List.mem_filter.mp ha).2
      rw [← groupSum_eq_of_closed m orig act hsub hcl a hamem]
      exact hcond

/-- C4: coarsest-sufficient.  Every tile emitted inside the level loop at a
key length `k ≥ 2` has the property that the aggregate count, over the
original full-precision table, of all hashes sharing its `(k-1)`-length slice
is strictly greater than `max_allowed_features_in_binary_hash`: groups are
emitted at the first level at which their sum fits, never early or late. -/
theorem c4_coarsest (C P : Nat) (rows : List Row) (hlen : KeyLen P rows)
    (p : BHKey) (v : Int) (hmem : (p, v) ∈ (mergeFrom C 1 P rows).1)
    (hp : 2 ≤ p.length) :
    (C : Int) < groupSum (p.length - 1) rows (p.take (p.length - 1)) :=
  mergeFrom_coarsest C P rows hlen P 0 rows (subFilter_self rows)
    (groupClosed_zero rows) (by omega)
    (fun _ _ h => absurd h (by omega)) p v hmem hp

theorem c4_coarsest_witness :
    KeyLen 2 [( ['0', '0'], 1), ( ['0', '1'], 1)]
      ∧ (( ['0', '0'], (1 : Int)) ∈ (mergeFrom 1 1 2 [( ['0', '0'], 1), ( ['0', '1'], 1)]).1)
      ∧ 2 ≤ ( ['0', '0'] : BHKey).length
      ∧ ((1 : Nat) : Int)
          < groupSum (( ['0', '0'] : BHKey).length - 1)
              [( ['0', '0'], 1), ( ['0', '1'], 1)]
              (( ['0', '0'] : BHKey).take (( ['0', '0'] : BHKey).length - 1)) :=
  ⟨by decide, by decide, by decide,
    c4_coarsest 1 2 [( ['0', '0'], 1), ( ['0', '1'], 1)] (by decide)
      ['0', '0'] 1 (by decide) (by decide)⟩

/-! ### Exactly-one-cover accounting -/

theorem underCapBound_eq (C : Nat) (hC : C + 1 < 2 ^ 64) :
    underCapBound C = (C : Int) + 1 := by
  unfold underCapBound
  rw [Nat.mod_eq_of_lt hC]
  push_cast
  ring

theorem keysNodup_subFilter {orig act : List Row} (hnd : KeysNodup orig)
    (hsub : SubFilter orig act) : KeysNodup act := by
  obtain ⟨q, rfl⟩ := hsub
  exact hnd.sublist ((List.filter_sublist orig).map (fun r => r.1))

/-- Two rows of a unique-key table with the same key are the same row. -/
theorem key_unique {l : List Row} (hnd : KeysNodup l) {e e' : Row}
    (he : e ∈ l) (he' : e' ∈ l) (hk : e.1 = e'.1) : e = e' := by
  induction l with
  | nil => cases he
  | cons a t ih =>
    have hh := List.nodup_cons.mp hnd
    rcases List.mem_cons.mp he with h1 | h1 <;>
      rcases List.mem_cons.mp he' with h2 | h2
    · rw [h1, h2]
    · exfalso
      apply hh.1
      show a.1 ∈ List.map (fun r => r.1) t
      rw [← h1, hk]
      exact List.mem_map_of_mem (fun r => r.1) h2
    · exfalso
      apply hh.1
      show a.1 ∈ List.map (fun r => r.1) t
      rw [← h2, ← hk]
      exact List.mem_map_of_mem (fun r => r.1) h1
    · exact ih hh.2 h1 h2

/-- In a unique-key table containing `r`, exactly one row has `r`'s key. -/
theorem countP_key_eq_one {l : List Row} (hnd : KeysNodup l) {r : Row}
    (hr : r ∈ l) : l.countP (fun e => decide (r.1 = e.1)) = 1 := by
  induction l with
  | nil => cases hr
  | cons a t ih =>
    have hh := List.nodup_cons.mp hnd
    rw [List.countP_cons]
    rcases List.mem_cons.mp hr with h1 | h1
    · have h0 : t.countP (fun e => decide (r.1 = e.1)) = 0 := by
        rw [List.countP_eq_zero]
        intro e he hdec
        apply hh.1
        show a.1 ∈ List.map (fun r => r.1) t
        rw [← h1, of_decide_eq_true hdec]
        exact List.mem_map_of_mem (fun r => r.1) he
      rw [h0, h1]
      simp
    · have hne : r.1 ≠ a.1 := by
        intro hk
        apply hh.1
        show a.1 ∈ List.map (fun r => r.1) t
        rw [← hk]
        exact List.mem_map_of_mem (fun r => r.1) h1
      rw [ih hh.2 h1]
      simp [hne]

/-- In a duplicate-free list containing `c`, exactly one entry equals `c`. -/
theorem countP_self_eq_one {β : Type} [DecidableEq β] {L : List β}
    (hnd : L.Nodup) {c : β} (hc : c ∈ L) :
    L.countP (fun p => decide (c = p)) = 1 := by
  induction L with
  | nil => cases hc
  | cons a t ih =>
    have hh := List.nodup_cons.mp hnd
    rw [List.countP_cons]
    rcases List.mem_cons.mp hc with h1 | h1
    · have h0 : t.countP (fun p => decide (c = p)) = 0 := by
        rw [List.countP_eq_zero]
        intro e he hdec
        apply hh.1
        rw [← h1, of_decide_eq_true hdec]
        exact he
      rw [h0, h1]
      simp
    · have hne : c ≠ a := by
        intro hk
        apply hh.1
        rw [← hk]
        exact h1
      rw [ih hh.2 h1]
      simp [hne]

/-- Every group key at slice length `n` of a table of keys of length `≥ n`
has length `n`. -/
theorem groupKeys_length {n P : Nat} {act : List Row}
    (hlen : ∀ r ∈ act, r.1.length = P) (hnP : n ≤ P) {p : BHKey}
    (hp : p ∈ groupKeys n act) : p.length = n := by
  obtain ⟨a, ha, hpa⟩ := mem_groupKeys hp
  rw [← hpa, List.length_take, hlen a ha]
  omega

/-- Induction core for C2: from any level on, a row of the original snapshot
gains exactly one covering tile key if it is still active, and none if it was
already finalized at an earlier level. -/
theorem mergeFrom_cover_count (C P : Nat) (hC : C + 1 < 2 ^ 64)
    (orig : List Row) (hnd : KeysNodup orig) (hlen : KeyLen P orig) :
    ∀ fuel m act, SubFilter orig act → GroupClosed m orig act → m + fuel = P →
      ∀ r ∈ orig,
        ((mergeFrom C (m + 1) fuel act).1
            ++ (mergeFrom C (m + 1) fuel act).2).countP
            (fun e => decide (r.1.take e.1.length = e.1))
          = if r ∈ act then 1 else 0 := by
  intro fuel
  induction fuel with
  | zero =>
    intro m act hsub _ hmf r hr
    simp only [mergeFrom, List.nil_append]
    have hcongr : act.countP (fun e => decide (r.1.take e.1.length = e.1))
        = act.countP (fun e => decide (r.1 = e.1)) := by
      apply List.countP_congr
      intro e he
      have he1 : e.1.length = P := hlen e (subFilter_mem hsub he)
      have hr1 : r.1.length = P := hlen r hr
      simp only [decide_eq_true_eq]
      rw [he1, ← hr1, List.take_length]
    rw [hcongr]
    by_cases hract : r ∈ act
    · rw [if_pos hract]
      exact countP_key_eq_one (keysNodup_subFilter hnd hsub) hract
    · rw [if_neg hract, List.countP_eq_zero]
      intro e he hdec
      have heq : r = e :=
        key_unique hnd hr (subFilter_mem hsub he) (of_decide_eq_true hdec)
      exact hract (heq ▸ he)
  | succ fuel ih =>
    intro m act hsub hcl hmf r hr
    have hmP : m + 1 ≤ P := by omega
    have hlenact : ∀ a ∈ act, a.1.length = P := fun a ha =>
      hlen a (subFilter_mem hsub ha)
    show ((emittedAt C (m + 1) act
        ++ (mergeFrom C (m + 1 + 1) fuel (overActive C (m + 1) act)).1)
        ++ (mergeFrom C (m + 1 + 1) fuel (overActive C (m + 1) act)).2).countP
        _ = _
    rw [List.append_assoc, List.countP_append]
    have hrest := ih (m + 1) (overActive C (m + 1) act)
      (subFilter_filter orig act hsub _)
      (groupClosed_overActive C m orig act hcl) (by omega) r hr
    rw [hrest]
    have hem : (emittedAt C (m + 1) act).countP
        (fun e => decide (r.1.take e.1.length = e.1))
        = (underGroups C (m + 1) act).countP
          (fun p => decide (r.1.take (m + 1) = p)) := by
      unfold emittedAt
      rw [List.countP_map]
      apply List.countP_congr
      intro p hp
      have hplen : p.length = m + 1 :=
        groupKeys_length hlenact hmP (List.mem_filter.mp hp).1
      simp only [Function.comp_apply, decide_eq_true_eq]
      rw [hplen]
    rw [hem]
    by_cases hract : r ∈ act
    · by_cases hunder :
        groupSum (m + 1) act (r.1.take (m + 1)) < underCapBound C
      · have hnotover : r ∉ overActive C (m + 1) act := by
          intro hmem
          have hov := of_decide_eq_true (List.mem_filter.mp hmem).2
          rw [underCapBound_eq C hC] at hunder
          omega
        rw [if_pos hract, if_neg hnotover]
        have hpU : r.1.take (m + 1) ∈ underGroups C (m + 1) act := by
          refine List.mem_filter.mpr ⟨?_, decide_eq_true hunder⟩
          exact List.mem_dedup.mpr
            (List.mem_map_of_mem (fun r => r.1.take (m + 1)) hract)
        have hUnd : (underGroups C (m + 1) act).Nodup :=
          (List.nodup_dedup _).filter _
        rw [countP_self_eq_one hUnd hpU]
      · have hover : r ∈ overActive C (m + 1) act := by
          refine List.mem_filter.mpr ⟨hract, decide_eq_true ?_⟩
          rw [underCapBound_eq C hC] at hunder
          omega
        rw [if_pos hract, if_pos hover]
        have h0 : (underGroups C (m + 1) act).countP
            (fun p => decide (r.1.take (m + 1) = p)) = 0 := by
          rw [List.countP_eq_zero]
          intro p hp hdec
          have hpr : r.1.take (m + 1) = p := of_decide_eq_true hdec
          have hlt := of_decide_eq_true (List.mem_filter.mp hp).2
          rw [← hpr] at hlt
          exact hunder hlt
        rw [h0]
    · have hnotover : r ∉ overActive C (m + 1) act := fun hmem =>
        hract (List.mem_filter.mp hmem).1
      rw [if_neg hract, if_neg hnotover]
      have h0 : (underGroups C (m + 1) act).countP
          (fun p => decide (r.1.take (m + 1) = p)) = 0 := by
        rw [List.countP_eq_zero]
        intro p hp hdec
        have hpr : r.1.take (m + 1) = p := of_decide_eq_true hdec
        obtain ⟨a, ha, hpa⟩ := mem_groupKeys (List.mem_filter.mp hp).1
        have htk : r.1.take m = a.1.take m :=
          take_eq_of_take_succ_eq (by rw [hpr, ← hpa])
        exact hract (hcl r hr a ha htk)
      rw [h0]

/-- C2 (amended): for every capacity `C < 2 ^ 64 - 1`, every full-precision
key present in the count table when `get_tiles()` is called has exactly one
returned tile key that is a prefix of it (`r.1.take e.1.length = e.1`), the
full hash itself counting as a prefix. -/
theorem c2_coverage (C P : Nat) (rows : List Row) (hC : C < 2 ^ 64 - 1)
    (hnd : KeysNodup rows) (hlen : KeyLen P rows) (r : Row) (hr : r ∈ rows) :
    (getTilesPairs C P rows).countP
      (fun e => decide (r.1.take e.1.length = e.1)) = 1 := by
  have h := mergeFrom_cover_count C P (by omega) rows hnd hlen P 0 rows
    (subFilter_self rows) (groupClosed_zero rows) (by omega) r hr
  rw [if_pos hr] at h
  exact h

theorem c2_coverage_witness :
    ((2 : Nat) < 2 ^ 64 - 1 ∧ KeysNodup [( ['0', '0'], 1), ( ['0', '1'], 1)]
        ∧ KeyLen 2 [( ['0', '0'], 1), ( ['0', '1'], 1)]
        ∧ (( ['0', '0'] : BHKey), (1 : Int)) ∈ [( ['0', '0'], 1), ( ['0', '1'], 1)])
      ∧ (getTilesPairs 2 2 [( ['0', '0'], 1), ( ['0', '1'], 1)]).countP
          (fun e => decide ((( ['0', '0'] : BHKey), (1 : Int)).1.take e.1.length
            = e.1)) = 1 :=
  ⟨⟨by decide, by decide, by decide, by decide⟩,
    c2_coverage 2 2 [( ['0', '0'], 1), ( ['0', '1'], 1)] (by decide) (by decide)
      (by decide) (( ['0', '0'] : BHKey), (1 : Int)) (by decide)⟩

/-- C2 counterexample: at `max_allowed_features_in_binary_hash = u64::MAX`
the returned map is empty (both level filters reject every group after the
wrapped `C + 1 = 0`), so the single stored full-precision hash has zero
covering tile keys, not exactly one. -/
theorem c2_coverage_cex :
    ¬ ((getTilesPairs (2 ^ 64 - 1) 1 [( ['0'], 1)]).countP
        (fun e => decide ((( ['0'] : BHKey), (1 : Int)).1.take e.1.length
          = e.1)) = 1) := by
  decide

/-! ### Boundary policy and the u64 increment -/

/-- C5: capacity boundary policy.  When a slice group's `total_node_count`
equals `max_allowed_features_in_binary_hash` exactly, `get_tiles()` treats the
group as within capacity: exactly one tile is inserted for it at this level
(the filter is `total < C + 1`, i.e. `≤ C`, not `< C`), and none of its rows
is carried into the next level.  The bound `C < 2 ^ 63` holds automatically
whenever such a group exists, because the group total is an `i64` value. -/
theorem c5_boundary (C n : Nat) (act : List Row) (p : BHKey)
    (hp : p ∈ groupKeys n act) (hsum : groupSum n act p = (C : Int))
    (hC : (C : Int) < 2 ^ 63) :
    (emittedAt C n act).countP (fun e => decide (e.1 = p)) = 1
      ∧ ∀ r ∈ overActive C n act, r.1.take n ≠ p := by
  have hC64 : C + 1 < 2 ^ 64 := by
    have hCn : C < 2 ^ 63 := by exact_mod_cast hC
    omega
  have hbound : underCapBound C = (C : Int) + 1 := underCapBound_eq C hC64
  have hunder : p ∈ underGroups C n act := by
    refine List.mem_filter.mpr ⟨hp, decide_eq_true ?_⟩
    rw [hsum, hbound]
    omega
  constructor
  · unfold emittedAt
    rw [List.countP_map]
    have hcg : (underGroups C n act).countP
        ((fun e => decide (e.1 = p)) ∘ (fun q => (q, groupSum n act q)))
        = (underGroups C n act).countP (fun q => decide (p = q)) := by
      apply List.countP_congr
      intro q _
      simp [Function.comp, eq_comm]
    rw [hcg]
    exact countP_self_eq_one ((List.nodup_dedup _).filter _) hunder
  · intro r hrm hpr
    have hov := of_decide_eq_true (List.mem_filter.mp hrm).2
    rw [hpr, hsum] at hov
    exact absurd hov (lt_irrefl _)

theorem c5_boundary_witness :
    (( ['0'] : BHKey) ∈ groupKeys 1 [( ['0', '0'], 1), ( ['0', '1'], 1)]
        ∧ groupSum 1 [( ['0', '0'], 1), ( ['0', '1'], 1)] ['0'] = ((2 : Nat) : Int)
        ∧ ((2 : Nat) : Int) < 2 ^ 63)
      ∧ (emittedAt 2 1 [( ['0', '0'], 1), ( ['0', '1'], 1)]).countP
          (fun e => decide (e.1 = ( ['0'] : BHKey))) = 1
      ∧ ∀ r ∈ overActive 2 1 [( ['0', '0'], 1), ( ['0', '1'], 1)],
          r.1.take 1 ≠ ( ['0'] : BHKey) :=
  ⟨⟨by decide, by decide, by decide⟩,
    c5_boundary 2 1 [( ['0', '0'], 1), ( ['0', '1'], 1)] ['0']
      (by decide) (by decide) (by decide)⟩

/-- C10: the within-capacity filter computes `C + 1` in u64 arithmetic
(tiler.rs:76, embedded with wrapping — the release behavior; under debug
semantics the same addition panics instead).  For every nonnegative group
total `s`, the filter bound `s < (C + 1) mod 2 ^ 64` agrees with the
documented boundary `s ≤ C` exactly when `C < 2 ^ 64 - 1`; at
`C = u64::MAX` the wrapped bound is `0`, so no group is within capacity. -/
theorem c10_overflow (C : Nat) (hC : C < 2 ^ 64) (s : Int) (hs0 : 0 ≤ s)
    (hsI : s < 2 ^ 63) :
    ((s < underCapBound C) ↔ s ≤ (C : Int)) ↔ C < 2 ^ 64 - 1 := by
  constructor
  · intro h
    by_contra hge
    have hCeq : C = 2 ^ 64 - 1 := by omega
    subst hCeq
    have hb : underCapBound (2 ^ 64 - 1) = 0 := by
      unfold underCapBound
      have h1 : 2 ^ 64 - 1 + 1 = 2 ^ 64 := by omega
      rw [h1, Nat.mod_self]
      rfl
    rw [hb] at h
    have hcast : ((2 ^ 64 - 1 : Nat) : Int) = 2 ^ 64 - 1 := by norm_num
    rw [hcast] at h
    omega
  · intro h
    rw [underCapBound_eq C (by omega)]
    omega

theorem c10_overflow_witness :
    ((2 ^ 64 - 2 : Nat) < 2 ^ 64 ∧ (0 : Int) ≤ 3 ∧ (3 : Int) < 2 ^ 63)
      ∧ ((((3 : Int) < underCapBound (2 ^ 64 - 2))
            ↔ (3 : Int) ≤ ((2 ^ 64 - 2 : Nat) : Int))
          ↔ (2 ^ 64 - 2 : Nat) < 2 ^ 64 - 1) :=
  ⟨⟨by decide, by decide, by decide⟩,
    c10_overflow (2 ^ 64 - 2) (by decide) 3 (by decide) (by decide)⟩

/-! ### State immutability and empty input -/

/-- C7: `get_tiles` takes `&self` and never touches `binary_hash_count`; in
the explicit-state embedding, the state it returns is the state it received,
so a retry over the same state yields the same outcome. -/
theorem c7_state_unchanged (decode : BHKey → BoundingBox) (t : Tiler) :
    (t.get_tiles decode).2 = t
      ∧ ((t.get_tiles decode).2.get_tiles decode).1 = (t.get_tiles decode).1 :=
  ⟨rfl, rfl⟩

theorem mergeFrom_nil (C : Nat) : ∀ fuel n, mergeFrom C n fuel [] = ([], []) := by
  intro fuel
  induction fuel with
  | zero => intro n; rfl
  | succ fuel ih =>
    intro n
    simp [mergeFrom, emittedAt, underGroups, groupKeys, overActive, ih]

/-- C8: with an empty count table (no `add_coordinate` call was made),
`get_tiles()` returns `Ok` with an empty tile map, for every precision and
every capacity. -/
theorem c8_empty (decode : BHKey → BoundingBox) (C P : Nat) :
    (Tiler.get_tiles decode ⟨P, C, []⟩).1 = Except.ok (fun _ => none) := by
  have h : getTilesPairs C P [] = [] := by
    unfold getTilesPairs
    rw [mergeFrom_nil C P 1]
    rfl
  show Except.ok (tileLookup decode (getTilesPairs C P [])) = _
  rw [h]
  rfl

/-! ### Iteration-order independence -/

theorem groupSum_perm (n : Nat) {l l' : List Row} (h : l.Perm l') (p : BHKey) :
    groupSum n l p = groupSum n l' p :=
  ((h.filter _).map _).sum_eq

theorem groupKeys_perm (n : Nat) {l l' : List Row} (h : l.Perm l') :
    (groupKeys n l).Perm (groupKeys n l') :=
  (h.map _).dedup

theorem underGroups_perm (C n : Nat) {l l' : List Row} (h : l.Perm l') :
    (underGroups C n l).Perm (underGroups C n l') := by
  unfold underGroups
  have h1 : (groupKeys n l).filter
        (fun p => decide (groupSum n l p < underCapBound C))
      = (groupKeys n l).filter
        (fun p => decide (groupSum n l' p < underCapBound C)) := by
    apply List.filter_congr
    intro p _
    rw [groupSum_perm n h p]
  rw [h1]
  exact (groupKeys_perm n h).filter _

theorem emittedAt_perm (C n : Nat) {l l' : List Row} (h : l.Perm l') :
    (emittedAt C n l).Perm (emittedAt C n l') := by
  unfold emittedAt
  have h1 : (underGroups C n l).map (fun p => (p, groupSum n l p))
      = (underGroups C n l).map (fun p => (p, groupSum n l' p)) := by
    apply List.map_congr_left
    intro p _
    rw [groupSum_perm n h p]
  rw [h1]
  exact (underGroups_perm C n h).map _

theorem overActive_perm (C n : Nat) {l l' : List Row} (h : l.Perm l') :
    (overActive C n l).Perm (overActive C n l') := by
  unfold overActive
  have h1 : l.filter (fun r => decide ((C : Int) < groupSum n l (r.1.take n)))
      = l.filter (fun r => decide ((C : Int) < groupSum n l' (r.1.take n))) := by
    apply List.filter_congr
    intro r _
    rw [groupSum_perm n h (r.1.take n)]
  rw [h1]
  exact h.filter _

theorem mergeFrom_perm (C : Nat) :
    ∀ fuel n {l l' : List Row}, l.Perm l' →
      (mergeFrom C n fuel l).1.Perm (mergeFrom C n fuel l').1
        ∧ (mergeFrom C n fuel l).2.Perm (mergeFrom C n fuel l').2 := by
  intro fuel
  induction fuel with
  | zero => intro n l l' h; exact ⟨List.Perm.refl _, h⟩
  | succ fuel ih =>
    intro n l l' h
    obtain ⟨h1, h2⟩ := ih (n + 1) (overActive_perm C n h)
    exact ⟨(emittedAt_perm C n h).append h1, h2⟩

theorem getTilesPairs_perm (C P : Nat) {l l' : List Row} (h : l.Perm l') :
    (getTilesPairs C P l).Perm (getTilesPairs C P l') := by
  obtain ⟨h1, h2⟩ := mergeFrom_perm C P 1 h
  exact h1.append h2

/-- Keys of all tiles inserted by `get_tiles()` are pairwise distinct: within
a level they are distinct group keys, across levels they have different
lengths, and a level-`P` group key never coincides with a leftover leaf
because a group is never both within and over capacity. -/
theorem mergeFrom_keys_nodup (C P : Nat) :
    ∀ fuel m act, KeysNodup act → (∀ r ∈ act, r.1.length = P) → m + fuel = P →
      KeysNodup ((mergeFrom C (m + 1) fuel act).1
          ++ (mergeFrom C (m + 1) fuel act).2)
        ∧ ∀ k ∈ ((mergeFrom C (m + 1) fuel act).1
              ++ (mergeFrom C (m + 1) fuel act).2).map (fun e => e.1),
            m ≤ k.length ∧ (k.length = m → ∃ a ∈ act, a.1.take m = k) := by
  intro fuel
  induction fuel with
  | zero =>
    intro m act hnd hlen hmf
    simp only [mergeFrom, List.nil_append]
    refine ⟨hnd, ?_⟩
    intro k hk
    obtain ⟨a, ha, hak⟩ := List.mem_map.mp hk
    have hal : a.1.length = P := hlen a ha
    constructor
    · rw [← hak, hal]
      omega
    · intro _
      refine ⟨a, ha, ?_⟩
      have hm : m = a.1.length := by omega
      rw [← hak, hm, List.take_length]
  | succ fuel ih =>
    intro m act hnd hlen hmf
    have hmP : m + 1 ≤ P := by omega
    have hnd' : KeysNodup (overActive C (m + 1) act) :=
      keysNodup_subFilter hnd ⟨_, rfl⟩
    have hlen' : ∀ r ∈ overActive C (m + 1) act, r.1.length = P :=
      fun r hr => hlen r (List.mem_filter.mp hr).1
    obtain ⟨ihnd, ihk⟩ := ih (m + 1) (overActive C (m + 1) act) hnd' hlen'
      (by omega)
    have hemkeys : (emittedAt C (m + 1) act).map (fun e => e.1)
        = underGroups C (m + 1) act := by
      unfold emittedAt
      rw [List.map_map]
      exact List.map_id' _
    have hshape : (mergeFrom C (m + 1) (fuel + 1) act).1
          ++ (mergeFrom C (m + 1) (fuel + 1) act).2
        = emittedAt C (m + 1) act
          ++ ((mergeFrom C (m + 1 + 1) fuel (overActive C (m + 1) act)).1
            ++ (mergeFrom C (m + 1 + 1) fuel (overActive C (m + 1) act)).2) := by
      show (emittedAt C (m + 1) act
          ++ (mergeFrom C (m + 1 + 1) fuel (overActive C (m + 1) act)).1)
          ++ (mergeFrom C (m + 1 + 1) fuel (overActive C (m + 1) act)).2 = _
      rw [List.append_assoc]
    rw [hshape]
    constructor
    · show (((emittedAt C (m + 1) act) ++ _).map (fun e => e.1)).Nodup
      rw [List.map_append, hemkeys, List.nodup_append]
      refine ⟨(List.nodup_dedup _).filter _, ihnd, ?_⟩
      intro p hpU hpRest
      have hplen : p.length = m + 1 :=
        groupKeys_length hlen hmP (List.mem_filter.mp hpU).1
      obtain ⟨a, ha, hcontra⟩ := (ihk p hpRest).2 hplen
      have hov : (C : Int) < groupSum (m + 1) act (a.1.take (m + 1)) :=
        of_decide_eq_true (List.mem_filter.mp ha).2
      rw [hcontra] at hov
      have hun : groupSum (m + 1) act p < underCapBound C :=
        of_decide_eq_true (List.mem_filter.mp hpU).2
      have hb : underCapBound C ≤ (C : Int) + 1 := by
        unfold underCapBound
        have hm : (C + 1) % 2 ^ 64 ≤ C + 1 := Nat.mod_le _ _
        exact_mod_cast hm
      omega
    · intro k hk
      rw [List.map_append] at hk
      rcases List.mem_append.mp hk with hkem | hkrest
      · rw [hemkeys] at hkem
        have hklen : k.length = m + 1 := groupKeys_length hlen hmP
          (List.mem_filter.mp hkem).1
        exact ⟨by omega, fun hkm => absurd (hklen.symm.trans hkm) (by omega)⟩
      · have hik := ihk k hkrest
        exact ⟨by omega, fun hkm => absurd hik.1 (by omega)⟩

theorem getTilesPairs_keys_nodup (C P : Nat) (rows : List Row)
    (hnd : KeysNodup rows) (hlen : KeyLen P rows) :
    ((getTilesPairs C P rows).map (fun e => e.1)).Nodup :=
  (mergeFrom_keys_nodup C P P 0 rows hnd hlen (by omega)).1

theorem find_key_mem {l : List (BHKey × Int)} {k : BHKey} {e : BHKey × Int}
    (h : l.find? (fun e => decide (e.1 = k)) = some e) : e ∈ l ∧ e.1 = k :=
  ⟨List.mem_of_find?_eq_some h, by simpa using List.find?_some h⟩

/-- On unique-key pair lists, the `HashMap` lookup is stable under
permutation: both sides find the unique pair with the given key, or none. -/
theorem tileLookup_perm_eq (decode : BHKey → BoundingBox)
    {l l' : List (BHKey × Int)} (hperm : l.Perm l')
    (hnd : (l.map (fun e => e.1)).Nodup) (k : BHKey) :
    tileLookup decode l k = tileLookup decode l' k := by
  unfold tileLookup
  cases hfl : l.reverse.find? (fun e => decide (e.1 = k)) with
  | none =>
    cases hfl' : l'.reverse.find? (fun e => decide (e.1 = k)) with
    | none => rfl
    | some e' =>
      exfalso
      obtain ⟨hmem, hk⟩ := find_key_mem hfl'
      have hmeml : e' ∈ l := hperm.symm.subset (List.mem_reverse.mp hmem)
      exact List.find?_eq_none.mp hfl e' (List.mem_reverse.mpr hmeml)
        (decide_eq_true hk)
  | some e =>
    obtain ⟨hmem, hk⟩ := find_key_mem hfl
    have hmeml : e ∈ l := List.mem_reverse.mp hmem
    cases hfl' : l'.reverse.find? (fun e => decide (e.1 = k)) with
    | none =>
      exfalso
      have hmeml' : e ∈ l' := hperm.subset hmeml
      exact List.find?_eq_none.mp hfl' e (List.mem_reverse.mpr hmeml')
        (decide_eq_true hk)
    | some e' =>
      obtain ⟨hmem', hk'⟩ := find_key_mem hfl'
      have hmeml' : e' ∈ l := hperm.symm.subset (List.mem_reverse.mp hmem')
      have heq : e = e' := key_unique hnd hmeml hmeml' (by rw [hk, hk'])
      rw [heq]

/-- C6: determinism and idempotence.  For a fixed count-table state (two row
lists that are permutations of one another, i.e. the same `HashMap` read in
any two iteration orders) and a fixed capacity, the two `get_tiles()` maps
agree on every key: same `node_count` and same decoded box. -/
theorem c6_determinism (decode : BHKey → BoundingBox) (C P : Nat)
    (rows rows' : List Row) (hperm : rows.Perm rows') (hnd : KeysNodup rows)
    (hlen : KeyLen P rows) (k : BHKey) :
    tileLookup decode (getTilesPairs C P rows) k
      = tileLookup decode (getTilesPairs C P rows') k :=
  tileLookup_perm_eq decode (getTilesPairs_perm C P hperm)
    (getTilesPairs_keys_nodup C P rows hnd hlen) k

/-- A stand-in codec decode used only to instantiate witnesses. -/
def sampleDecode : BHKey → BoundingBox :=
  fun _ => ⟨0, 0, 0, 0⟩

theorem c6_determinism_witness :
    (([( ['0', '0'], 1), ( ['0', '1'], 2)] : List Row).Perm
          [( ['0', '1'], 2), ( ['0', '0'], 1)]
        ∧ KeysNodup [( ['0', '0'], 1), ( ['0', '1'], 2)]
        ∧ KeyLen 2 [( ['0', '0'], 1), ( ['0', '1'], 2)])
      ∧ tileLookup sampleDecode
          (getTilesPairs 2 2 [( ['0', '0'], 1), ( ['0', '1'], 2)]) ['0']
        = tileLookup sampleDecode
          (getTilesPairs 2 2 [( ['0', '1'], 2), ( ['0', '0'], 1)]) ['0'] :=
  ⟨⟨by decide, by decide, by decide⟩,
    c6_determinism sampleDecode 2 2 [( ['0', '0'], 1), ( ['0', '1'], 2)]
      [( ['0', '1'], 2), ( ['0', '0'], 1)] (by decide) (by decide) (by decide)
      ['0']⟩

/-! ### Panic-safety of the byte slicing -/

theorem addKey_keys {Q : BHKey → Prop} {k : BHKey} (hk : Q k) :
    ∀ t : List Row, (∀ r ∈ t, Q r.1) → ∀ r ∈ addKey k t, Q r.1 := by
  intro t
  induction t with
  | nil =>
    intro _ r hr
    rw [List.mem_singleton.mp hr]
    exact hk
  | cons a rest ih =>
    intro hall r hr
    by_cases h : a.1 = k
    · rw [addKey, if_pos h] at hr
      rcases List.mem_cons.mp hr with heq | hmem
      · rw [heq]
        exact hall a (List.mem_cons_self a rest)
      · exact hall r (List.mem_cons_of_mem a hmem)
    · rw [addKey, if_neg h] at hr
      rcases List.mem_cons.mp hr with heq | hmem
      · rw [heq]
        exact hall a (List.mem_cons_self a rest)
      · exact ih (fun r hr => hall r (List.mem_cons_of_mem a hr)) r hmem

/-- `add_coordinate` preserves the precision field and any key property the
codec guarantees at that precision. -/
theorem runAdds_keys {α : Type} (encode : α → Nat → BHKey) (P : Nat)
    (Q : BHKey → Prop) (henc : ∀ c, Q (encode c P)) :
    ∀ (coords : List α) (t : Tiler), t.binary_hash_precision = P →
      (∀ r ∈ t.binary_hash_count, Q r.1) →
      (runAdds encode t coords).binary_hash_precision = P
        ∧ ∀ r ∈ (runAdds encode t coords).binary_hash_count, Q r.1 := by
  intro coords
  induction coords with
  | nil => intro t hP hQ; exact ⟨hP, hQ⟩
  | cons c cs ih =>
    intro t hP hQ
    have h1 : runAdds encode t (c :: cs)
        = runAdds encode (Tiler.add_coordinate encode t c) cs := rfl
    rw [h1]
    refine ih (Tiler.add_coordinate encode t c) hP ?_
    intro r hr
    refine addKey_keys ?_ t.binary_hash_count hQ r hr
    rw [hP]
    exact henc c

theorem activeAt_subFilter (C : Nat) (rows : List Row) :
    ∀ i, SubFilter rows (activeAt C rows i) := by
  intro i
  induction i with
  | zero => exact subFilter_self rows
  | succ i ih => exact subFilter_filter rows (activeAt C rows i) ih _

theorem utf8Len_eq_length {l : List Char}
    (h : ∀ ch ∈ l, ch = '0' ∨ ch = '1') : utf8Len l = l.length := by
  induction l with
  | nil => rfl
  | cons a t ih =>
    have ha : charUtf8Size a = 1 := by
      rcases h a (List.mem_cons_self a t) with h1 | h1 <;> rw [h1] <;> rfl
    have ht := ih (fun ch hch => h ch (List.mem_cons_of_mem a hch))
    unfold utf8Len at ht ⊢
    rw [List.map_cons, List.sum_cons, ht, ha, List.length_cons]
    omega

theorem take_boundary {l : List Char} (h : ∀ ch ∈ l, ch = '0' ∨ ch = '1')
    {b : Nat} (hb : b ≤ l.length) : IsCharBoundary l b := by
  refine ⟨b, hb, ?_⟩
  have ht := utf8Len_eq_length
    (fun ch hch => h ch (List.take_subset b l hch))
  rw [ht, List.length_take]
  omega

/-- C9: panic-safety of the byte slicing at tiler.rs:48.  Under the codec
contract of the spec (`BinaryHash::encode` yields a `'0'`/`'1'` string of
length `binary_hash_precision`), every key in a table built by
`add_coordinate` calls is an ASCII string of exactly that length, so at every
level `i < binary_hash_precision` the byte slice `&key[..i + 1]` of every
active key is in bounds and on a character boundary — it never panics. -/
theorem c9_slice_safety {α : Type} (encode : α → Nat → BHKey) (P : Nat)
    (henc : ∀ c, (encode c P).length = P
      ∧ ∀ ch ∈ encode c P, ch = '0' ∨ ch = '1')
    (coords : List α) (C i : Nat) (hi : i < P) (r : Row)
    (hr : r ∈ activeAt C
      ((runAdds encode (Tiler.new P C) coords).binary_hash_count) i) :
    r.1.length = P ∧ (∀ ch ∈ r.1, ch.toNat < 128)
      ∧ i + 1 ≤ utf8Len r.1 ∧ IsCharBoundary r.1 (i + 1) := by
  have htab := runAdds_keys encode P
    (fun key => key.length = P ∧ ∀ ch ∈ key, ch = '0' ∨ ch = '1') henc coords
    (Tiler.new P C) rfl (by intro r hr; cases hr)
  have hrt := subFilter_mem
    (activeAt_subFilter C
      ((runAdds encode (Tiler.new P C) coords).binary_hash_count) i) hr
  obtain ⟨hlenr, hbin⟩ := htab.2 r hrt
  have hlen8 : utf8Len r.1 = r.1.length := utf8Len_eq_length hbin
  refine ⟨hlenr, ?_, ?_, ?_⟩
  · intro ch hch
    rcases hbin ch hch with h1 | h1 <;> rw [h1] <;> decide
  · rw [hlen8, hlenr]
    omega
  · exact take_boundary hbin (by rw [hlenr]; omega)

theorem c9_slice_safety_witness :
    ((∀ c : Unit, ((fun (_ : Unit) (_ : Nat) => ( ['0', '0'] : BHKey)) c 2).length = 2
        ∧ ∀ ch ∈ (fun (_ : Unit) (_ : Nat) => ( ['0', '0'] : BHKey)) c 2,
            ch = '0' ∨ ch = '1')
        ∧ (0 : Nat) < 2
        ∧ (( ['0', '0'] : BHKey), (2 : Int)) ∈ activeAt 5
            ((runAdds (fun (_ : Unit) (_ : Nat) => ( ['0', '0'] : BHKey))
              (Tiler.new 2 5) [(), ()]).binary_hash_count) 0)
      ∧ (( ['0', '0'] : BHKey), (2 : Int)).1.length = 2
        ∧ (∀ ch ∈ (( ['0', '0'] : BHKey), (2 : Int)).1, ch.toNat < 128)
        ∧ 0 + 1 ≤ utf8Len (( ['0', '0'] : BHKey), (2 : Int)).1
        ∧ IsCharBoundary (( ['0', '0'] : BHKey), (2 : Int)).1 (0 + 1) :=
  ⟨⟨fun _ => (by decide :
        (( ['0', '0'] : BHKey).length = 2
          ∧ ∀ ch ∈ ( ['0', '0'] : BHKey), ch = '0' ∨ ch = '1')),
      by decide, by decide⟩,
    c9_slice_safety (fun (_ : Unit) (_ : Nat) => ( ['0', '0'] : BHKey)) 2
      (fun _ => (by decide :
        (( ['0', '0'] : BHKey).length = 2
          ∧ ∀ ch ∈ ( ['0', '0'] : BHKey), ch = '0' ∨ ch = '1')))
      [(), ()] 5 0 (by decide)
      (( ['0', '0'] : BHKey), (2 : Int)) (by decide)⟩
